import Mathlib

/-!
Verification of the core of an AF_XDP user-space packet I/O library.

The development shallowly embeds the library source:
* `InnerRing` with `push` / `pop` / `free_entries` / `filled_entries` /
  `is_empty` / `is_full` (src/af-xdp-lib/src/ring/inner.rs),
* the wakeup flag logic `needs_wakeup` and the `poke` guards
  (src/af-xdp-lib/src/ring/inner.rs and src/af-xdp-lib/src/ring/mod.rs),
* the frame descriptors and their mutators and conversions
  (src/af-xdp-lib/src/umem_packet_desc.rs and src/af-xdp-lib/src/descriptor/mod.rs),
* the UMEM descriptor pool, the marker guard and the socket binding logic
  (src/af-xdp-lib/src/umem.rs, src/af-xdp-lib/src/umem/mod.rs and
  src/af-xdp-lib/src/umem/maker_guard.rs).

Machine integers are embedded as `Nat` with explicit reduction modulo
`2 ^ 32` (`u32` ring counters) or `2 ^ 64` (`u64` addresses, and `usize`,
which is 64-bit on the Linux targets this library supports).
-/

namespace AfXdp

/-- Modulus of `u32` arithmetic: `4294967296 = 2 ^ 32`. -/
def u32Lim : Nat := 4294967296

/-- Modulus of `u64` / 64-bit `usize` arithmetic: `2 ^ 64`. -/
def u64Lim : Nat := 18446744073709551616

theorem u32Lim_eq : u32Lim = 2 ^ 32 := by norm_num [u32Lim]

theorem u64Lim_eq : u64Lim = 2 ^ 64 := by norm_num [u64Lim]

/-- Rust `u32::wrapping_add` on values below `2 ^ 32`. -/
def wadd (a b : Nat) : Nat := (a + b) % u32Lim

/-- Rust `u32::wrapping_sub` on values below `2 ^ 32`. -/
def wsub (a b : Nat) : Nat := (a + (u32Lim - b % u32Lim)) % u32Lim

/-- Rust `!x` (bitwise complement) on `u64`. -/
def notU64 (x : Nat) : Nat := u64Lim - 1 - x

/-!
## Ring buffer (`InnerRing`, src/af-xdp-lib/src/ring/inner.rs)

The ring has a `u32` producer counter, a `u32` consumer counter and an array
of `RING_SIZE` in-ring descriptor slots.  The element type is kept abstract
(`α` stands for `FrameDescriptor::RingType`); the slot array is a list whose
length is `RING_SIZE`.  `InnerRing::new` statically asserts that `RING_SIZE`
is a power of two and at most `2 ^ 31`.
-/

structure InnerRing (α : Type) where
  producer : Nat
  consumer : Nat
  ring_region : List α
deriving Repr, DecidableEq

/-- Embeds `InnerRing::free_entries`:
`consumer.wrapping_add(RING_SIZE as u32).wrapping_sub(producer)`. -/
def free_entries (n : Nat) (r : InnerRing α) : Nat :=
  wsub (wadd r.consumer n) r.producer

/-- Embeds `InnerRing::filled_entries`: `producer.wrapping_sub(consumer)`. -/
def filled_entries (r : InnerRing α) : Nat :=
  wsub r.producer r.consumer

/-- Embeds `InnerRing::is_empty`: `producer == consumer`. -/
def is_empty (r : InnerRing α) : Bool :=
  r.producer == r.consumer

/-- Embeds `InnerRing::is_full`: `filled_entries == RING_SIZE as u32`. -/
def is_full (n : Nat) (r : InnerRing α) : Bool :=
  filled_entries r == n

/-- Embeds `InnerRing::pop`.  On a non-empty ring it reads the slot at
`consumer & (ring_region.len() - 1)`, advances the consumer counter by one
(wrapping) and returns the slot value; on an empty ring it returns `none`
and leaves the state unchanged.  The source indexes the slot array directly;
the index is always in bounds, so `List.getD` with a default never actually
falls back to the default. -/
def pop [Inhabited α] (r : InnerRing α) : Option α × InnerRing α :=
  if !(is_empty r) then
    let consumer := r.consumer
    let desc := r.ring_region.getD (consumer &&& (r.ring_region.length - 1)) default
    (some desc, { r with consumer := wadd consumer 1 })
  else
    (none, r)

/-- Embeds `InnerRing::push`.  On a non-full ring it writes the input into the
slot at `producer & (ring_region.len() - 1)`, advances the producer counter by
one (wrapping) and returns `Ok(())`; on a full ring it returns
`Err(input)`, handing the rejected descriptor back, and leaves the state
unchanged. -/
def push (n : Nat) (r : InnerRing α) (input : α) : Except α Unit × InnerRing α :=
  if !(is_full n r) then
    let producer := r.producer
    let ring_region_len := r.ring_region.length
    (Except.ok (),
      { r with
          ring_region := r.ring_region.set (producer &&& (ring_region_len - 1)) input,
          producer := wadd producer 1 })
  else
    (Except.error input, r)

/-!
## Wakeup flags (`InnerRing::flags` / `needs_wakeup`, and the `poke` guards)

`XDP_RING_NEED_WAKEUP` is bit 0 of the ring flags word (kernel ABI value `1`).
`needs_wakeup` uses the bitflags `contains` test (`flags & BIT == BIT`), while
each of the three `poke` implementations (RX, TX and FILL rings in
src/af-xdp-lib/src/ring/mod.rs) guards its wakeup syscall with the bitflags
equality test `flags == XdpRingFlags::XDP_RING_NEED_WAKEUP`, which compares
the whole flags value.  The flags word is absent (`none`) when the kernel did
not map one.
-/

def XDP_RING_NEED_WAKEUP : Nat := 1

/-- Embeds `InnerRing::needs_wakeup`: true iff a flags word is present and its
`XDP_RING_NEED_WAKEUP` bit is set (bitflags `contains`). -/
def needs_wakeup (flagsWord : Option Nat) : Bool :=
  match flagsWord with
  | some flags => flags &&& XDP_RING_NEED_WAKEUP == XDP_RING_NEED_WAKEUP
  | none => false

/-- Guard of `RxRing::poke`: the non-blocking `recvfrom` wakeup is issued iff
the flags word is present and equal (as a whole value) to
`XDP_RING_NEED_WAKEUP`. -/
def rx_poke_wakes (flagsWord : Option Nat) : Bool :=
  match flagsWord with
  | some flags => flags == XDP_RING_NEED_WAKEUP
  | none => false

/-- Guard of `TxRing::poke` (non-blocking zero-length `sendto`); same test as
the RX ring guard. -/
def tx_poke_wakes (flagsWord : Option Nat) : Bool :=
  match flagsWord with
  | some flags => flags == XDP_RING_NEED_WAKEUP
  | none => false

/-- Guard of `FillRing::poke` (non-blocking `recvfrom`); same test as the RX
ring guard. -/
def fill_poke_wakes (flagsWord : Option Nat) : Bool :=
  match flagsWord with
  | some flags => flags == XDP_RING_NEED_WAKEUP
  | none => false

/-!
## Frame descriptors (src/af-xdp-lib/src/umem_packet_desc.rs, descriptor/mod.rs)

`RxTxFrameDescriptor` wraps an `XdpDesc { addr: u64, len: u32, options: u32 }`
(the chunk-byte borrow is derived from `addr` and is not part of the value
state).  `FillCompFrameDescriptor` wraps a bare `u64` address.  `options` is
an opaque bitflags value, embedded as a `Nat`.
-/

structure XdpDescV where
  addr : Nat
  len : Nat
  options : Nat
deriving Repr, DecidableEq

structure FillCompDescV where
  addr : Nat
deriving Repr, DecidableEq

/-- Embeds `base_addr`: `addr & !(CHUNK_SIZE as u64 - 1)` (both descriptor
kinds use the same mask). -/
def base_addr (CHUNK_SIZE : Nat) (addr : Nat) : Nat :=
  addr &&& notU64 (CHUNK_SIZE - 1)

/-- Embeds `RxTxFrameDescriptor::data_offset`: `addr - base_addr`. -/
def data_offset (CHUNK_SIZE : Nat) (d : XdpDescV) : Nat :=
  d.addr - base_addr CHUNK_SIZE d.addr

/-- Embeds `RxTxFrameDescriptor::length` (`len as usize`). -/
def desc_length (d : XdpDescV) : Nat :=
  d.len

inductive ExceedsChunkSize where
  | exceeds
deriving Repr, DecidableEq

/-- Embeds `RxTxFrameDescriptor::set_addr_and_length`.  The bounds check
`offset_from_base_addr + length as usize > CHUNK_SIZE` is a `usize` addition,
which wraps modulo `2 ^ 64`; on failure the receiver is unchanged, on success
`addr` becomes `base_addr + offset` (a `u64` addition, also wrapping) and
`len` becomes `length`.  The pair returns the `Result` together with the
descriptor state after the call. -/
def set_addr_and_length (CHUNK_SIZE : Nat) (d : XdpDescV)
    (offset_from_base_addr : Nat) (length : Nat) :
    Except ExceedsChunkSize Unit × XdpDescV :=
  if (offset_from_base_addr + length) % u64Lim > CHUNK_SIZE then
    (Except.error ExceedsChunkSize.exceeds, d)
  else
    (Except.ok (),
      { d with
          addr := (base_addr CHUNK_SIZE d.addr + offset_from_base_addr) % u64Lim,
          len := length })

/-- Embeds `RxTxFrameDescriptor::set_length`:
`set_addr_and_length(self.data_offset(), length)`. -/
def set_length (CHUNK_SIZE : Nat) (d : XdpDescV) (length : Nat) :
    Except ExceedsChunkSize Unit × XdpDescV :=
  set_addr_and_length CHUNK_SIZE d (data_offset CHUNK_SIZE d) length

/-- Embeds `RxTxFrameDescriptor::set_addr`:
`set_addr_and_length(offset_from_base_addr, self.descriptor.len)`. -/
def set_addr (CHUNK_SIZE : Nat) (d : XdpDescV) (offset_from_base_addr : Nat) :
    Except ExceedsChunkSize Unit × XdpDescV :=
  set_addr_and_length CHUNK_SIZE d offset_from_base_addr d.len

/-- Embeds `From<FillCompFrameDescriptor> for RxTxFrameDescriptor`:
`XdpDesc { addr: value.addr, len: 0, options: XdpDescOptions::empty() }`. -/
def fillCompToRxTx (fc : FillCompDescV) : XdpDescV :=
  { addr := fc.addr, len := 0, options := 0 }

/-- Embeds `From<RxTxFrameDescriptor> for FillCompFrameDescriptor`:
takes `base_addr(value.descriptor)`. -/
def rxTxToFillComp (CHUNK_SIZE : Nat) (d : XdpDescV) : FillCompDescV :=
  { addr := base_addr CHUNK_SIZE d.addr }

/-!
## UMEM descriptor pool (`Umem::descriptors`)

The pool maps every chunk index to the address `chunk_index * CHUNK_SIZE` and
reverses the collection (last chunk first).  The variant in
src/af-xdp-lib/src/umem.rs guards the pool behind a `descriptors_given_out`
boolean and yields `None` on every call after the first; the variant in
src/af-xdp-lib/src/umem/mod.rs enforces the same once-only property by
consuming an affine `DescriptorsToken`.  A pool element is represented by its
`u64` address (the payload of a `FillCompFrameDescriptor`).
-/

def descriptorsList (chunk_amount CHUNK_SIZE : Nat) : List Nat :=
  ((List.range chunk_amount).map (fun chunk_index => chunk_index * CHUNK_SIZE)).reverse

/-- Embeds `Umem::descriptors` (the `descriptors_given_out` gated variant):
returns the pool exactly once, `none` afterwards, and the flag is set after
any call. -/
def descriptors (chunk_amount CHUNK_SIZE : Nat) (descriptors_given_out : Bool) :
    Option (List Nat) × Bool :=
  if descriptors_given_out then
    (none, true)
  else
    (some (descriptorsList chunk_amount CHUNK_SIZE), true)

/-!
## Marker guard (src/af-xdp-lib/src/umem/maker_guard.rs, umem construction)

A process-wide set of used marker identities (`TypeId`s, embedded as `Nat`)
guards UMEM construction.  `MarkerGuard::new` inserts the marker and fails
with `MarkerAlreadyUsed` when it is already present; dropping the guard
removes the marker.  `Umem::new` acquires the guard first; if the rest of
construction (socket creation, UMEM registration) fails, the guard is dropped
on the error path, releasing the marker.  The remainder of construction is
summarized by the boolean `restOk`.
-/

inductive UmemNewOutcome where
  | success
  | markerAlreadyUsed
  | otherError
deriving Repr, DecidableEq

/-- Embeds `MarkerGuard::new`: insert the marker if absent. -/
def markerGuardNew (m : Nat) (used : List Nat) : Except UmemNewOutcome (List Nat) :=
  if m ∈ used then Except.error UmemNewOutcome.markerAlreadyUsed
  else Except.ok (m :: used)

/-- Embeds `Drop for MarkerGuard`: remove the marker from the used set. -/
def markerGuardDrop (m : Nat) (used : List Nat) : List Nat :=
  used.erase m

/-- Embeds `Umem::new` restricted to its marker bookkeeping: acquire the
guard, then run the rest of construction (summarized by `restOk`); a failure
of the rest drops the guard, releasing the marker. -/
def umemNew (m : Nat) (restOk : Bool) (used : List Nat) : UmemNewOutcome × List Nat :=
  match markerGuardNew m used with
  | Except.error _ => (UmemNewOutcome.markerAlreadyUsed, used)
  | Except.ok used2 =>
    if restOk then (UmemNewOutcome.success, used2)
    else (UmemNewOutcome.otherError, markerGuardDrop m used2)

/-- Embeds `Drop for Umem`: dropping the UMEM drops its marker guard. -/
def umemDrop (m : Nat) (used : List Nat) : List Nat :=
  markerGuardDrop m used

/-!
## Socket binding (`Umem::bind_socket`)

The state is the `initial_rings_given_out` flag.  The source swaps the flag
to `true` and branches on the previous value: the first caller binds with
`XDP_USE_NEED_WAKEUP`, every later caller binds with `XDP_SHARED_UMEM`
carrying the anchor socket fd.  The outcome of the underlying `bind(2)`
syscall is summarized by `bindOk`; note that the swap happens before the
outcome is known.
-/

inductive BindFlagsKind where
  | useNeedWakeup
  | sharedUmem
deriving Repr, DecidableEq

structure BindCall where
  flags : BindFlagsKind
  sharedUmemFd : Option Nat
  ok : Bool
deriving Repr, DecidableEq

/-- Embeds `Umem::bind_socket`: returns the bind call that was issued and the
new `initial_rings_given_out` state. -/
def bind_socket (anchorFd : Nat) (initial_rings_given_out : Bool) (bindOk : Bool) :
    BindCall × Bool :=
  if !initial_rings_given_out then
    ({ flags := BindFlagsKind.useNeedWakeup, sharedUmemFd := none, ok := bindOk }, true)
  else
    ({ flags := BindFlagsKind.sharedUmem, sharedUmemFd := some anchorFd, ok := bindOk }, true)

/-!
## Ring trace semantics and invariant

`runTrace` replays a list of operations against a ring, collecting the values
of the successful pushes and the successful pops in order.  Failed operations
(push on a full ring, pop on an empty ring) leave the state unchanged and
record nothing, exactly as in the source.
-/

inductive RingOp (α : Type) where
  | pushOp (x : α)
  | popOp
deriving Repr, DecidableEq

def runTrace [Inhabited α] (n : Nat) :
    List (RingOp α) → InnerRing α → InnerRing α × List α × List α
  | [], r => (r, [], [])
  | RingOp.pushOp x :: ops, r =>
    match push n r x with
    | (Except.ok _, r2) =>
      ((runTrace n ops r2).1, x :: (runTrace n ops r2).2.1, (runTrace n ops r2).2.2)
    | (Except.error _, r2) => runTrace n ops r2
  | RingOp.popOp :: ops, r =>
    match pop r with
    | (some v, r2) =>
      ((runTrace n ops r2).1, (runTrace n ops r2).2.1, v :: (runTrace n ops r2).2.2)
    | (none, r2) => runTrace n ops r2

/-- Coupling invariant between a ring state and the abstract FIFO queue `q` of
descriptors currently held by the ring: both counters are `u32` values, the
producer counter is the consumer counter advanced (wrapping) by the queue
length, the queue fits in the ring, and slot `(consumer + j) mod n` holds the
`j`-th queue element. -/
structure RingInv [Inhabited α] (n : Nat) (r : InnerRing α) (q : List α) : Prop where
  consumer_lt : r.consumer < u32Lim
  producer_eq : r.producer = (r.consumer + q.length) % u32Lim
  len_le : q.length ≤ n
  region_len : r.ring_region.length = n
  slots : ∀ j, j < q.length →
    r.ring_region.getD ((r.consumer + j) % n) default = q.getD j default

theorem RingInv.filled_eq [Inhabited α] {n : Nat} {r : InnerRing α} {q : List α}
    (hnM : n < u32Lim) (inv : RingInv n r q) : filled_entries r = q.length := by
  have hc := inv.consumer_lt
  have hl := inv.len_le
  have hp := inv.producer_eq
  unfold filled_entries wsub
  rw [hp]
  unfold u32Lim at *
  omega

theorem RingInv.free_eq [Inhabited α] {n : Nat} {r : InnerRing α} {q : List α}
    (hnM : n < u32Lim) (inv : RingInv n r q) : free_entries n r = n - q.length := by
  have hc := inv.consumer_lt
  have hl := inv.len_le
  have hp := inv.producer_eq
  unfold free_entries wsub wadd
  rw [hp]
  unfold u32Lim at *
  omega

theorem RingInv.is_empty_iff [Inhabited α] {n : Nat} {r : InnerRing α} {q : List α}
    (hnM : n < u32Lim) (inv : RingInv n r q) : is_empty r = true ↔ q = [] := by
  have hc := inv.consumer_lt
  have hl := inv.len_le
  have hp := inv.producer_eq
  unfold is_empty
  rw [beq_iff_eq, hp, ← List.length_eq_zero]
  unfold u32Lim at *
  constructor
  · intro h; omega
  · intro h; omega

theorem mask_eq_mod {k : Nat} (x : Nat) : x &&& (2 ^ k - 1) = x % 2 ^ k :=
  Nat.and_pow_two_sub_one_eq_mod x k

theorem pow_dvd_u32Lim {k : Nat} (hk : k ≤ 31) : 2 ^ k ∣ u32Lim := by
  rw [u32Lim_eq]
  exact Nat.pow_dvd_pow 2 (by omega)

theorem pow_lt_u32Lim {k : Nat} (hk : k ≤ 31) : 2 ^ k < u32Lim := by
  rw [u32Lim_eq]
  exact Nat.pow_lt_pow_right (by omega) (by omega)

theorem mod_u32_add_mod {n : Nat} (hdvd : n ∣ u32Lim) (a j : Nat) :
    (a % u32Lim + j) % n = (a + j) % n := by
  conv_lhs => rw [← Nat.mod_add_mod]
  rw [Nat.mod_mod_of_dvd _ hdvd, Nat.mod_add_mod]

theorem push_full_step [Inhabited α] {n : Nat} {r : InnerRing α} {q : List α}
    (hnM : n < u32Lim) (inv : RingInv n r q) (hq : q.length = n) (x : α) :
    push n r x = (Except.error x, r) := by
  have hfull : is_full n r = true := by
    simp [is_full, inv.filled_eq hnM, hq]
  simp [push, hfull]

theorem pop_empty_step [Inhabited α] {n : Nat} {r : InnerRing α}
    (hnM : n < u32Lim) (inv : RingInv n r ([] : List α)) : pop r = (none, r) := by
  have hempty : is_empty r = true := (inv.is_empty_iff hnM).mpr rfl
  simp [pop, hempty]

theorem push_step [Inhabited α] {n k : Nat} (hn : n = 2 ^ k) (hk : k ≤ 31)
    {r : InnerRing α} {q : List α} (inv : RingInv n r q) (x : α)
    (hq : q.length < n) :
    push n r x =
      (Except.ok (),
        { r with
            ring_region := r.ring_region.set (r.producer % n) x,
            producer := wadd r.producer 1 }) ∧
    RingInv n
      { r with
          ring_region := r.ring_region.set (r.producer % n) x,
          producer := wadd r.producer 1 } (q ++ [x]) := by
  have hnM : n < u32Lim := hn ▸ pow_lt_u32Lim hk
  have hdvd : n ∣ u32Lim := hn ▸ pow_dvd_u32Lim hk
  have hnpos : 0 < n := hn ▸ Nat.pos_pow_of_pos k (by omega)
  have hfull : is_full n r = false := by
    simp only [is_full, inv.filled_eq hnM, beq_eq_false_iff_ne, ne_eq]
    omega
  have hmask : r.producer &&& (r.ring_region.length - 1) = r.producer % n := by
    rw [inv.region_len, hn, mask_eq_mod]
  have hidx : r.producer % n = (r.consumer + q.length) % n := by
    rw [inv.producer_eq, Nat.mod_mod_of_dvd _ hdvd]
  constructor
  · simp only [push, hfull, Bool.not_false, if_pos]
    rw [hmask]
  · refine ⟨inv.consumer_lt, ?_, ?_, ?_, ?_⟩
    · show wadd r.producer 1 = (r.consumer + (q ++ [x]).length) % u32Lim
      rw [List.length_append, List.length_singleton]
      unfold wadd
      rw [inv.producer_eq, Nat.mod_add_mod]
      unfold u32Lim
      omega
    · simp only [List.length_append, List.length_singleton]
      omega
    · show (r.ring_region.set (r.producer % n) x).length = n
      rw [List.length_set, inv.region_len]
    · intro j hj
      simp only [List.length_append, List.length_singleton] at hj
      show (r.ring_region.set (r.producer % n) x).getD ((r.consumer + j) % n) default =
        (q ++ [x]).getD j default
      rcases Nat.lt_or_ge j q.length with hjlt | hjge
      · have hne : r.producer % n ≠ (r.consumer + j) % n := by
          rw [hidx]
          intro h
          have hmodeq : Nat.ModEq n (r.consumer + j) (r.consumer + q.length) := h.symm
          have hdvd2 : n ∣ (r.consumer + q.length) - (r.consumer + j) :=
            (Nat.modEq_iff_dvd' (by omega)).mp hmodeq
          have := Nat.le_of_dvd (by omega) hdvd2
          omega
        rw [List.getD_eq_getElem?_getD, List.getElem?_set_ne hne,
          ← List.getD_eq_getElem?_getD, inv.slots j hjlt]
        simp only [List.getD_eq_getElem?_getD, List.getElem?_append_left hjlt]
      · have hjeq : j = q.length := by omega
        subst hjeq
        rw [← hidx]
        have hlt : r.producer % n < r.ring_region.length := by
          rw [inv.region_len]
          exact Nat.mod_lt _ hnpos
        rw [List.getD_eq_getElem?_getD, List.getElem?_set_self hlt,
          List.getD_eq_getElem?_getD, List.getElem?_concat_length]

theorem pop_step [Inhabited α] {n k : Nat} (hn : n = 2 ^ k) (hk : k ≤ 31)
    {r : InnerRing α} {x : α} {q : List α} (inv : RingInv n r (x :: q)) :
    pop r = (some x, { r with consumer := wadd r.consumer 1 }) ∧
    RingInv n { r with consumer := wadd r.consumer 1 } q := by
  have hnM : n < u32Lim := hn ▸ pow_lt_u32Lim hk
  have hdvd : n ∣ u32Lim := hn ▸ pow_dvd_u32Lim hk
  have hempty : is_empty r = false := by
    rcases h : is_empty r with _ | _
    · rfl
    · exact absurd ((inv.is_empty_iff hnM).mp h) (by simp)
  have hmask : r.consumer &&& (r.ring_region.length - 1) = r.consumer % n := by
    rw [inv.region_len, hn, mask_eq_mod]
  have hval : r.ring_region.getD (r.consumer % n) default = x := by
    have := inv.slots 0 (by simp)
    simpa using this
  constructor
  · simp only [pop, hempty, Bool.not_false, if_pos]
    rw [hmask, hval]
  · have hc1 : wadd r.consumer 1 < u32Lim := Nat.mod_lt _ (by unfold u32Lim; omega)
    refine ⟨hc1, ?_, ?_, inv.region_len, ?_⟩
    · show r.producer = (wadd r.consumer 1 + q.length) % u32Lim
      unfold wadd
      rw [Nat.mod_add_mod, inv.producer_eq]
      congr 1
      simp only [List.length_cons]
      omega
    · have := inv.len_le
      simp only [List.length_cons] at this
      omega
    · intro j hj
      show r.ring_region.getD ((wadd r.consumer 1 + j) % n) default = q.getD j default
      have hidx2 : (wadd r.consumer 1 + j) % n = (r.consumer + (j + 1)) % n := by
        unfold wadd
        rw [mod_u32_add_mod hdvd]
        congr 1
        omega
      rw [hidx2, inv.slots (j + 1) (by simp only [List.length_cons]; omega)]
      simp

theorem runTrace_push_ok [Inhabited α] {n : Nat} {r r2 : InnerRing α} {x : α}
    {ops : List (RingOp α)} (h : push n r x = (Except.ok (), r2)) :
    runTrace n (RingOp.pushOp x :: ops) r =
      ((runTrace n ops r2).1, x :: (runTrace n ops r2).2.1, (runTrace n ops r2).2.2) := by
  simp only [runTrace, h]

theorem runTrace_push_err [Inhabited α] {n : Nat} {r : InnerRing α} {x y : α}
    {ops : List (RingOp α)} (h : push n r x = (Except.error y, r)) :
    runTrace n (RingOp.pushOp x :: ops) r = runTrace n ops r := by
  simp only [runTrace, h]

theorem runTrace_pop_some [Inhabited α] {n : Nat} {r r2 : InnerRing α} {v : α}
    {ops : List (RingOp α)} (h : pop r = (some v, r2)) :
    runTrace n (RingOp.popOp :: ops) r =
      ((runTrace n ops r2).1, (runTrace n ops r2).2.1, v :: (runTrace n ops r2).2.2) := by
  simp only [runTrace, h]

theorem runTrace_pop_none [Inhabited α] {n : Nat} {r : InnerRing α}
    {ops : List (RingOp α)} (h : pop r = (none, r)) :
    runTrace n (RingOp.popOp :: ops) r = runTrace n ops r := by
  simp only [runTrace, h]

/-- Replaying any trace preserves the coupling invariant: the final ring is
coupled to a residual queue `qf`, and the popped sequence followed by `qf`
equals the initial queue followed by the pushed sequence. -/
theorem runTrace_inv [Inhabited α] {n k : Nat} (hn : n = 2 ^ k) (hk : k ≤ 31) :
    ∀ (ops : List (RingOp α)) (r : InnerRing α) (q : List α), RingInv n r q →
      ∃ qf, RingInv n (runTrace n ops r).1 qf ∧
        (runTrace n ops r).2.2 ++ qf = q ++ (runTrace n ops r).2.1 := by
  intro ops
  have hnM : n < u32Lim := hn ▸ pow_lt_u32Lim hk
  induction ops with
  | nil =>
    intro r q inv
    exact ⟨q, inv, by simp [runTrace]⟩
  | cons op ops ih =>
    intro r q inv
    cases op with
    | pushOp x =>
      rcases Nat.lt_or_ge q.length n with hlt | hge
      · obtain ⟨hpush, inv2⟩ := push_step hn hk inv x hlt
        obtain ⟨qf, invf, heq⟩ := ih _ _ inv2
        rw [runTrace_push_ok hpush]
        refine ⟨qf, invf, ?_⟩
        simpa [List.append_assoc] using heq
      · have hq : q.length = n := Nat.le_antisymm inv.len_le hge
        obtain ⟨qf, invf, heq⟩ := ih _ _ inv
        rw [runTrace_push_err (push_full_step hnM inv hq x)]
        exact ⟨qf, invf, heq⟩
    | popOp =>
      cases q with
      | nil =>
        obtain ⟨qf, invf, heq⟩ := ih _ _ inv
        rw [runTrace_pop_none (pop_empty_step hnM inv)]
        exact ⟨qf, invf, heq⟩
      | cons y q =>
        obtain ⟨hpop, inv2⟩ := pop_step hn hk inv
        obtain ⟨qf, invf, heq⟩ := ih _ _ inv2
        rw [runTrace_pop_some hpop]
        refine ⟨qf, invf, ?_⟩
        simpa using heq

/-- Statement of the trace-level counter and FIFO consistency of a ring: with
`k_push` the number of successful pushes and `k_pop` the number of successful
pops of the trace, the wrapping difference producer minus consumer
(`filled_entries`) equals `k_push - k_pop` and stays at most `RING_SIZE`,
`free_entries` is its complement, and the popped sequence is the first
`k_pop` pushed values, in order. -/
def RingTraceConsistent [Inhabited α] (n : Nat) (ops : List (RingOp α))
    (r0 : InnerRing α) : Prop :=
  (runTrace n ops r0).2.2.length ≤ (runTrace n ops r0).2.1.length ∧
  filled_entries (runTrace n ops r0).1 =
    (runTrace n ops r0).2.1.length - (runTrace n ops r0).2.2.length ∧
  filled_entries (runTrace n ops r0).1 ≤ n ∧
  free_entries n (runTrace n ops r0).1 = n - filled_entries (runTrace n ops r0).1 ∧
  (runTrace n ops r0).2.2 = (runTrace n ops r0).2.1.take (runTrace n ops r0).2.2.length

/-- Claim C1: starting from an initially empty ring (producer = consumer),
after any interleaving of successful pushes and pops the wrapping difference
producer − consumer (`filled_entries`) equals `k_push − k_pop`, stays within
`[0, RING_SIZE]`, `free_entries = RING_SIZE − filled_entries`, and the popped
descriptor sequence equals the pushed sequence in FIFO order (it is the
prefix of length `k_pop` of the pushed sequence). -/
theorem ring_trace_fifo [Inhabited α] (n k : Nat) (hn : n = 2 ^ k) (hk : k ≤ 31)
    (c0 : Nat) (hc0 : c0 < u32Lim) (slots0 : List α) (hlen : slots0.length = n)
    (ops : List (RingOp α)) :
    RingTraceConsistent n ops (InnerRing.mk c0 c0 slots0) := by
  have hnM : n < u32Lim := hn ▸ pow_lt_u32Lim hk
  have inv0 : RingInv n (InnerRing.mk c0 c0 slots0) ([] : List α) := by
    refine ⟨hc0, ?_, by simp, hlen, ?_⟩
    · simp [Nat.mod_eq_of_lt hc0]
    · intro j hj
      exact absurd hj (by simp)
  obtain ⟨qf, invf, heq⟩ := runTrace_inv hn hk ops _ _ inv0
  simp only [List.nil_append] at heq
  have hfill := invf.filled_eq hnM
  have hfree := invf.free_eq hnM
  have hlenq : (runTrace n ops (InnerRing.mk c0 c0 slots0)).2.1.length =
      (runTrace n ops (InnerRing.mk c0 c0 slots0)).2.2.length + qf.length := by
    rw [← heq, List.length_append]
  refine ⟨by omega, by omega, ?_, ?_, ?_⟩
  · rw [hfill]
    exact invf.len_le
  · rw [hfree, hfill]
  · rw [← heq, List.take_left]

/-- Concrete instance of `ring_trace_fifo` on a ring of size 4 with the trace
push 10, push 20, pop, push 30, pop. -/
theorem ring_trace_fifo_witness :
    ((4 : Nat) = 2 ^ 2 ∧ 2 ≤ 31 ∧ 0 < u32Lim ∧ ([0, 0, 0, 0] : List Nat).length = 4) ∧
    RingTraceConsistent 4
      [RingOp.pushOp 10, RingOp.pushOp 20, RingOp.popOp, RingOp.pushOp 30, RingOp.popOp]
      (InnerRing.mk 0 0 ([0, 0, 0, 0] : List Nat)) :=
  ⟨⟨by norm_num, by norm_num, by norm_num [u32Lim], rfl⟩,
    ring_trace_fifo 4 2 (by norm_num) (by norm_num) 0 (by norm_num [u32Lim])
      [0, 0, 0, 0] rfl _⟩

/-- Claim C2: on a non-full ring (wrapping difference producer − consumer
below `RING_SIZE`), `push` writes the descriptor into the slot at index
`producer &&& (RING_SIZE − 1)`, advances the producer counter by exactly one
(wrapping) and succeeds; on a full ring it returns the rejected descriptor
and changes nothing. -/
theorem push_spec (n : Nat) (r : InnerRing α) (x : α)
    (hlen : r.ring_region.length = n) :
    (filled_entries r < n →
      push n r x =
        (Except.ok (),
          { r with
              ring_region := r.ring_region.set (r.producer &&& (n - 1)) x,
              producer := wadd r.producer 1 })) ∧
    (filled_entries r = n →
      push n r x = (Except.error x, r)) := by
  constructor
  · intro h
    have hfull : is_full n r = false := by
      simp only [is_full, beq_eq_false_iff_ne, ne_eq]
      omega
    simp only [push, hfull, Bool.not_false, if_pos, hlen]
  · intro h
    have hfull : is_full n r = true := by simp [is_full, h]
    simp [push, hfull]

/-- Concrete instance of `push_spec` on a ring of size 2 holding no entries. -/
theorem push_spec_witness :
    (([5, 6] : List Nat).length = 2) ∧
    ((filled_entries (InnerRing.mk 0 0 ([5, 6] : List Nat)) < 2 →
        push 2 (InnerRing.mk 0 0 ([5, 6] : List Nat)) 9 =
          (Except.ok (),
            { InnerRing.mk 0 0 ([5, 6] : List Nat) with
                ring_region :=
                  (InnerRing.mk 0 0 ([5, 6] : List Nat)).ring_region.set
                    ((InnerRing.mk 0 0 ([5, 6] : List Nat)).producer &&& (2 - 1)) 9,
                producer := wadd (InnerRing.mk 0 0 ([5, 6] : List Nat)).producer 1 })) ∧
      (filled_entries (InnerRing.mk 0 0 ([5, 6] : List Nat)) = 2 →
        push 2 (InnerRing.mk 0 0 ([5, 6] : List Nat)) 9 =
          (Except.error 9, InnerRing.mk 0 0 ([5, 6] : List Nat)))) :=
  ⟨rfl, push_spec 2 (InnerRing.mk 0 0 ([5, 6] : List Nat)) 9 rfl⟩

/-- Claim C3: on a non-empty ring (producer ≠ consumer), `pop` reads the slot
at index `consumer &&& (RING_SIZE − 1)`, advances the consumer counter by
exactly one (wrapping) and returns the descriptor; on an empty ring it
returns `none` and changes nothing. -/
theorem pop_spec [Inhabited α] (n : Nat) (r : InnerRing α)
    (hlen : r.ring_region.length = n) :
    (r.producer ≠ r.consumer →
      pop r =
        (some (r.ring_region.getD (r.consumer &&& (n - 1)) default),
          { r with consumer := wadd r.consumer 1 })) ∧
    (r.producer = r.consumer → pop r = (none, r)) := by
  constructor
  · intro h
    have hempty : is_empty r = false := by simp [is_empty, h]
    simp only [pop, hempty, Bool.not_false, if_pos, hlen]
  · intro h
    have hempty : is_empty r = true := by simp [is_empty, h]
    simp [pop, hempty]

/-- Concrete instance of `pop_spec` on a ring of size 2 holding one entry. -/
theorem pop_spec_witness :
    (([7, 8] : List Nat).length = 2) ∧
    (((InnerRing.mk 1 0 ([7, 8] : List Nat)).producer ≠
        (InnerRing.mk 1 0 ([7, 8] : List Nat)).consumer →
      pop (InnerRing.mk 1 0 ([7, 8] : List Nat)) =
        (some ((InnerRing.mk 1 0 ([7, 8] : List Nat)).ring_region.getD
            ((InnerRing.mk 1 0 ([7, 8] : List Nat)).consumer &&& (2 - 1)) default),
          { InnerRing.mk 1 0 ([7, 8] : List Nat) with
              consumer := wadd (InnerRing.mk 1 0 ([7, 8] : List Nat)).consumer 1 })) ∧
      ((InnerRing.mk 1 0 ([7, 8] : List Nat)).producer =
        (InnerRing.mk 1 0 ([7, 8] : List Nat)).consumer →
      pop (InnerRing.mk 1 0 ([7, 8] : List Nat)) =
        (none, InnerRing.mk 1 0 ([7, 8] : List Nat)))) :=
  ⟨rfl, pop_spec 2 (InnerRing.mk 1 0 ([7, 8] : List Nat)) rfl⟩

/-!
## Chunk mask arithmetic

For a power-of-two chunk size `2 ^ k`, the mask `addr & !(CHUNK_SIZE - 1)`
rounds a 64-bit address down to a multiple of the chunk size.
-/

theorem notU64_two_pow {k : Nat} (hk : k ≤ 64) : notU64 (2 ^ k - 1) = 2 ^ 64 - 2 ^ k := by
  have h : 2 ^ k ≤ 2 ^ 64 := Nat.pow_le_pow_right (by omega) hk
  have h1 : 1 ≤ 2 ^ k := Nat.one_le_two_pow
  unfold notU64
  rw [u64Lim_eq]
  omega

theorem and_not_mask {k : Nat} (hk : k ≤ 64) {a : Nat} (ha : a < 2 ^ 64) :
    a &&& (2 ^ 64 - 2 ^ k) = 2 ^ k * (a / 2 ^ k) := by
  have hmask : 2 ^ 64 - 2 ^ k = (2 ^ (64 - k) - 1) <<< k := by
    rw [Nat.shiftLeft_eq, Nat.sub_mul, Nat.one_mul, ← Nat.pow_add]
    congr 2
    omega
  have hdiv : 2 ^ k * (a / 2 ^ k) = (a >>> k) <<< k := by
    rw [Nat.shiftRight_eq_div_pow, Nat.shiftLeft_eq, Nat.mul_comm]
  rw [hmask, hdiv]
  apply Nat.eq_of_testBit_eq
  intro i
  rw [Nat.testBit_and, Nat.testBit_shiftLeft, Nat.testBit_shiftLeft,
    Nat.testBit_shiftRight]
  by_cases hki : i ≥ k
  · have hcancel : k + (i - k) = i := by omega
    rw [Nat.testBit_two_pow_sub_one, hcancel]
    by_cases hi : i < 64
    · have : i - k < 64 - k := by omega
      simp [hki, this]
    · have hfa : Nat.testBit a i = false :=
        Nat.testBit_lt_two_pow (lt_of_lt_of_le ha (Nat.pow_le_pow_right (by omega) (by omega)))
      have : ¬ (i - k < 64 - k) := by omega
      simp [hki, this, hfa]
  · simp [hki]

theorem base_addr_eq {k : Nat} (hk : k ≤ 64) {a : Nat} (ha : a < 2 ^ 64) :
    base_addr (2 ^ k) a = 2 ^ k * (a / 2 ^ k) := by
  unfold base_addr
  rw [notU64_two_pow hk, and_not_mask hk ha]

theorem base_addr_bound {k : Nat} (hk : k ≤ 64) {a : Nat} (ha : a < 2 ^ 64) :
    base_addr (2 ^ k) a ≤ 2 ^ 64 - 2 ^ k := by
  rw [base_addr_eq hk ha]
  have hpos : 0 < 2 ^ k := Nat.pos_pow_of_pos k (by omega)
  have hdivlt : a / 2 ^ k < 2 ^ (64 - k) := by
    apply Nat.div_lt_of_lt_mul
    rw [← Nat.pow_add]
    have : k + (64 - k) = 64 := by omega
    rw [this]
    exact ha
  have := Nat.mul_le_mul_left (2 ^ k) (Nat.le_sub_one_of_lt hdivlt)
  calc 2 ^ k * (a / 2 ^ k) ≤ 2 ^ k * (2 ^ (64 - k) - 1) := this
    _ = 2 ^ 64 - 2 ^ k := by
        rw [Nat.mul_sub, Nat.mul_one, ← Nat.pow_add]
        congr 2
        omega

theorem base_addr_add_lt {k : Nat} (hk : k ≤ 64) {a o : Nat} (ha : a < 2 ^ 64)
    (ho : o < 2 ^ k) : base_addr (2 ^ k) a + o < 2 ^ 64 := by
  have h1 := base_addr_bound hk ha
  have h2 : 2 ^ k ≤ 2 ^ 64 := Nat.pow_le_pow_right (by omega) hk
  omega

theorem base_addr_add_offset {k : Nat} (hk : k ≤ 64) {a o : Nat} (ha : a < 2 ^ 64)
    (ho : o < 2 ^ k) :
    base_addr (2 ^ k) (base_addr (2 ^ k) a + o) = base_addr (2 ^ k) a := by
  have hpos : 0 < 2 ^ k := Nat.pos_pow_of_pos k (by omega)
  have hlt := base_addr_add_lt hk ha ho
  rw [base_addr_eq hk hlt, base_addr_eq hk ha]
  rw [Nat.mul_add_div hpos, Nat.div_eq_of_lt ho, Nat.add_zero]

theorem base_addr_aligned {k : Nat} (hk : k ≤ 64) {c : Nat} (hc : c * 2 ^ k < 2 ^ 64) :
    base_addr (2 ^ k) (c * 2 ^ k) = c * 2 ^ k := by
  have hpos : 0 < 2 ^ k := Nat.pos_pow_of_pos k (by omega)
  rw [base_addr_eq hk hc, Nat.mul_div_cancel c hpos, Nat.mul_comm]

/-- Claim C4 counterexample: the call `set_addr_and_length(CHUNK_SIZE, 0)`
succeeds (the bounds check allows `offset + len = CHUNK_SIZE`), but the new
address `base_addr + CHUNK_SIZE` lies in the next chunk, so the resulting
`data_offset` is `0` and not the requested offset `CHUNK_SIZE`; the claim
that on success `data_offset = o` is therefore false as stated. -/
theorem set_addr_and_length_offset_eq_chunk :
    (set_addr_and_length 2048 (XdpDescV.mk 0 0 0) 2048 0).1 = Except.ok () ∧
    data_offset 2048 (set_addr_and_length 2048 (XdpDescV.mk 0 0 0) 2048 0).2 = 0 ∧
    (0 : Nat) ≠ 2048 :=
  ⟨rfl, rfl, by decide⟩

/-- Claim C4 (amended): for a power-of-two chunk size, a valid `u64` address
and inputs whose `usize` sum does not overflow, `set_addr_and_length(o, l)`
succeeds iff `o + l ≤ CHUNK_SIZE`; on failure it returns `ExceedsChunkSize`
and leaves the descriptor unchanged; on success with `o < CHUNK_SIZE` the
descriptor satisfies `data_offset = o`, `length = l` and
`data_offset + length ≤ CHUNK_SIZE` (in the residual edge case
`o = CHUNK_SIZE, l = 0` the call succeeds but re-bases into the next chunk);
`set_length` and `set_addr` compose onto `set_addr_and_length`, keeping the
current `data_offset` respectively the current `len`. -/
theorem set_addr_and_length_spec (k CS : Nat) (hCS : CS = 2 ^ k) (hk : k ≤ 63)
    (d : XdpDescV) (ha : d.addr < u64Lim) (o l : Nat) (hol : o + l < u64Lim) :
    ((set_addr_and_length CS d o l).1 = Except.ok () ↔ o + l ≤ CS) ∧
    (o + l > CS →
      set_addr_and_length CS d o l = (Except.error ExceedsChunkSize.exceeds, d)) ∧
    (o + l ≤ CS → o < CS →
      data_offset CS (set_addr_and_length CS d o l).2 = o ∧
      desc_length (set_addr_and_length CS d o l).2 = l ∧
      data_offset CS (set_addr_and_length CS d o l).2 +
        desc_length (set_addr_and_length CS d o l).2 ≤ CS) ∧
    set_length CS d l = set_addr_and_length CS d (data_offset CS d) l ∧
    set_addr CS d o = set_addr_and_length CS d o d.len := by
  have hk64 : k ≤ 64 := by omega
  have hmod : (o + l) % u64Lim = o + l := Nat.mod_eq_of_lt hol
  have ha64 : d.addr < 2 ^ 64 := by rw [← u64Lim_eq]; exact ha
  refine ⟨?_, ?_, ?_, rfl, rfl⟩
  · unfold set_addr_and_length
    rw [hmod]
    by_cases h : o + l > CS
    · simp [h]
      try omega
    · simp [h]
      try omega
  · intro h
    unfold set_addr_and_length
    rw [hmod]
    simp [h]
  · intro hle ho
    have hoCS : o < 2 ^ k := hCS ▸ ho
    have hnotgt : ¬ ((o + l) % u64Lim > CS) := by rw [hmod]; omega
    have hres : (set_addr_and_length CS d o l).2 =
        { d with addr := (base_addr CS d.addr + o) % u64Lim, len := l } := by
      unfold set_addr_and_length
      simp [hnotgt]
    have haddlt : base_addr CS d.addr + o < 2 ^ 64 := by
      rw [hCS]
      exact base_addr_add_lt hk64 ha64 hoCS
    have haddmod : (base_addr CS d.addr + o) % u64Lim = base_addr CS d.addr + o := by
      rw [u64Lim_eq]
      exact Nat.mod_eq_of_lt haddlt
    have hbase : base_addr CS (base_addr CS d.addr + o) = base_addr CS d.addr := by
      rw [hCS]
      exact base_addr_add_offset hk64 ha64 hoCS
    rw [hres]
    unfold data_offset desc_length
    simp only [haddmod, hbase]
    refine ⟨by omega, by simp, by omega⟩

/-- Concrete instance of `set_addr_and_length_spec` with chunk size 2048,
offset 5 and length 10 on a fresh descriptor. -/
theorem set_addr_and_length_spec_witness :
    ((2048 : Nat) = 2 ^ 11 ∧ 11 ≤ 63 ∧ (XdpDescV.mk 0 0 0).addr < u64Lim ∧
      5 + 10 < u64Lim) ∧
    (((set_addr_and_length 2048 (XdpDescV.mk 0 0 0) 5 10).1 = Except.ok () ↔
        5 + 10 ≤ 2048) ∧
      (5 + 10 > 2048 →
        set_addr_and_length 2048 (XdpDescV.mk 0 0 0) 5 10 =
          (Except.error ExceedsChunkSize.exceeds, XdpDescV.mk 0 0 0)) ∧
      (5 + 10 ≤ 2048 → 5 < 2048 →
        data_offset 2048 (set_addr_and_length 2048 (XdpDescV.mk 0 0 0) 5 10).2 = 5 ∧
        desc_length (set_addr_and_length 2048 (XdpDescV.mk 0 0 0) 5 10).2 = 10 ∧
        data_offset 2048 (set_addr_and_length 2048 (XdpDescV.mk 0 0 0) 5 10).2 +
          desc_length (set_addr_and_length 2048 (XdpDescV.mk 0 0 0) 5 10).2 ≤ 2048) ∧
      set_length 2048 (XdpDescV.mk 0 0 0) 10 =
        set_addr_and_length 2048 (XdpDescV.mk 0 0 0)
          (data_offset 2048 (XdpDescV.mk 0 0 0)) 10 ∧
      set_addr 2048 (XdpDescV.mk 0 0 0) 5 =
        set_addr_and_length 2048 (XdpDescV.mk 0 0 0) 5 (XdpDescV.mk 0 0 0).len) :=
  ⟨⟨by norm_num, by norm_num, by decide, by decide⟩,
    set_addr_and_length_spec 11 2048 (by norm_num) (by norm_num)
      (XdpDescV.mk 0 0 0) (by decide) 5 10 (by decide)⟩

/-- Claim C10 counterexample: at `offset = usize::MAX` and `length = 1` the
`usize` addition in the bounds check wraps to `0`, so the call spuriously
succeeds although the exact mathematical sum `2 ^ 64` exceeds the chunk
size; the check is therefore not decided on the exact sum for all inputs. -/
theorem set_addr_and_length_overflow :
    (set_addr_and_length 2048 (XdpDescV.mk 0 0 0) (u64Lim - 1) 1).1 = Except.ok () ∧
    u64Lim - 1 + 1 > 2048 :=
  ⟨rfl, by decide⟩

/-- Claim C10 (amended): the bounds check is computed with wrapping `usize`
addition; whenever `offset + length` does not overflow (is below `2 ^ 64`)
the check is decided on the exact mathematical sum and the call returns `Ok`
iff the sum is at most `CHUNK_SIZE` and `Err(ExceedsChunkSize)` otherwise,
but for overflowing inputs the wrapped sum can spuriously pass the check. -/
theorem set_addr_and_length_check_exact (CS : Nat) (d : XdpDescV) (o l : Nat)
    (hol : o + l < u64Lim) :
    ((set_addr_and_length CS d o l).1 = Except.ok () ↔ o + l ≤ CS) ∧
    ((set_addr_and_length CS d o l).1 = Except.error ExceedsChunkSize.exceeds ↔
      o + l > CS) := by
  have hmod : (o + l) % u64Lim = o + l := Nat.mod_eq_of_lt hol
  unfold set_addr_and_length
  rw [hmod]
  by_cases h : o + l > CS
  · simp [h]
    try omega
  · simp [h]
    try omega

/-- Concrete instance of `set_addr_and_length_check_exact` with chunk size
2048, offset 2000 and length 100 (an exact rejection). -/
theorem set_addr_and_length_check_exact_witness :
    (2000 + 100 < u64Lim) ∧
    (((set_addr_and_length 2048 (XdpDescV.mk 64 3 0) 2000 100).1 = Except.ok () ↔
        2000 + 100 ≤ 2048) ∧
      ((set_addr_and_length 2048 (XdpDescV.mk 64 3 0) 2000 100).1 =
          Except.error ExceedsChunkSize.exceeds ↔ 2000 + 100 > 2048)) :=
  ⟨by decide, set_addr_and_length_check_exact 2048 (XdpDescV.mk 64 3 0) 2000 100 (by decide)⟩

/-- Claim C5: the conversions between the two user-facing descriptors are
total functions; AddrDesc → DataDesc preserves the address and zeroes `len`
and `options`; DataDesc → AddrDesc takes `base_addr` (discarding the
intra-chunk offset); and the round trip AddrDesc → DataDesc → AddrDesc
preserves `base_addr`. -/
theorem descriptor_conversion_spec (CS : Nat) (fc : FillCompDescV) (d : XdpDescV) :
    (fillCompToRxTx fc).addr = fc.addr ∧
    (fillCompToRxTx fc).len = 0 ∧
    (fillCompToRxTx fc).options = 0 ∧
    (rxTxToFillComp CS d).addr = base_addr CS d.addr ∧
    base_addr CS (rxTxToFillComp CS (fillCompToRxTx fc)).addr = base_addr CS fc.addr := by
  refine ⟨rfl, rfl, rfl, rfl, ?_⟩
  show base_addr CS (base_addr CS fc.addr) = base_addr CS fc.addr
  unfold base_addr
  rw [Nat.and_assoc, Nat.and_self]

/-- Claim C9 counterexample: a flags word with value 3 has the
`XDP_RING_NEED_WAKEUP` bit set (and `needs_wakeup` reports true), yet none
of the three poke guards fires, because every poke compares the whole flags
value for equality with `XDP_RING_NEED_WAKEUP` instead of testing the bit. -/
theorem poke_extra_bits_counterexample :
    needs_wakeup (some 3) = true ∧
    rx_poke_wakes (some 3) = false ∧
    tx_poke_wakes (some 3) = false ∧
    fill_poke_wakes (some 3) = false := by decide

/-- Claim C9 (amended): each of the RX, TX and FILL poke operations issues
its single non-blocking wakeup syscall exactly when the ring has a flags
word whose value is equal to `XDP_RING_NEED_WAKEUP` (the bit set and no
other bit), and does nothing when the flags word is absent or differs;
`needs_wakeup()` returns true iff a flags word is present and its
`XDP_RING_NEED_WAKEUP` bit is set in the value read. -/
theorem poke_guard_spec (f : Option Nat) :
    (rx_poke_wakes f = true ↔ f = some XDP_RING_NEED_WAKEUP) ∧
    (tx_poke_wakes f = true ↔ f = some XDP_RING_NEED_WAKEUP) ∧
    (fill_poke_wakes f = true ↔ f = some XDP_RING_NEED_WAKEUP) ∧
    (needs_wakeup f = true ↔
      ∃ v, f = some v ∧ v &&& XDP_RING_NEED_WAKEUP = XDP_RING_NEED_WAKEUP) := by
  cases f with
  | none => simp [rx_poke_wakes, tx_poke_wakes, fill_poke_wakes, needs_wakeup]
  | some v => simp [rx_poke_wakes, tx_poke_wakes, fill_poke_wakes, needs_wakeup]

/-- Claim C8, evaluated at the failing input: the first `bind_socket` call
uses the `XDP_USE_NEED_WAKEUP` sockaddr, but the anchor flag is swapped to
true before the bind outcome is known, so even after a failed first bind the
next call takes the `XDP_SHARED_UMEM` path carrying the anchor fd — the
first attempt, not the first successful bind, claims the anchor role. -/
theorem bind_socket_failed_first_bind :
    (bind_socket 7 false false).1.flags = BindFlagsKind.useNeedWakeup ∧
    (bind_socket 7 false false).1.sharedUmemFd = none ∧
    (bind_socket 7 false false).1.ok = false ∧
    (bind_socket 7 false false).2 = true ∧
    (bind_socket 7 (bind_socket 7 false false).2 true).1.flags =
      BindFlagsKind.sharedUmem ∧
    (bind_socket 7 (bind_socket 7 false false).2 true).1.sharedUmemFd = some 7 := by
  decide

/-- Claim C7: while a UMEM holding marker `m` exists (the marker is in the
process-wide used set), constructing a second UMEM with `m` fails with
`MarkerAlreadyUsed` and leaves the set unchanged; construction with a free
marker succeeds and records it; dropping the UMEM releases the marker, and a
failed construction releases it on the error path, so in both cases a
subsequent construction with `m` succeeds in acquiring the marker. -/
theorem marker_guard_spec (m : Nat) (used : List Nat) (restOk : Bool)
    (h : m ∉ used) :
    umemNew m true used = (UmemNewOutcome.success, m :: used) ∧
    (∀ s : List Nat, m ∈ s →
      umemNew m restOk s = (UmemNewOutcome.markerAlreadyUsed, s)) ∧
    umemDrop m (m :: used) = used ∧
    umemNew m true (umemDrop m (m :: used)) = (UmemNewOutcome.success, m :: used) ∧
    umemNew m false used = (UmemNewOutcome.otherError, used) ∧
    umemNew m true (umemNew m false used).2 = (UmemNewOutcome.success, m :: used) := by
  have hdrop : (m :: used).erase m = used := List.erase_cons_head m used
  refine ⟨?_, ?_, ?_, ?_, ?_, ?_⟩
  · simp [umemNew, markerGuardNew, h]
  · intro s hs
    simp [umemNew, markerGuardNew, hs]
  · simp [umemDrop, markerGuardDrop, hdrop]
  · simp [umemNew, markerGuardNew, umemDrop, markerGuardDrop, hdrop, h]
  · simp [umemNew, markerGuardNew, markerGuardDrop, hdrop, h]
  · simp [umemNew, markerGuardNew, markerGuardDrop, hdrop, h]

/-- Concrete instance of `marker_guard_spec` with marker 1 and used set [2]. -/
theorem marker_guard_spec_witness :
    ((1 : Nat) ∉ ([2] : List Nat)) ∧
    (umemNew 1 true [2] = (UmemNewOutcome.success, [1, 2]) ∧
      (∀ s : List Nat, 1 ∈ s →
        umemNew 1 true s = (UmemNewOutcome.markerAlreadyUsed, s)) ∧
      umemDrop 1 [1, 2] = [2] ∧
      umemNew 1 true (umemDrop 1 [1, 2]) = (UmemNewOutcome.success, [1, 2]) ∧
      umemNew 1 false [2] = (UmemNewOutcome.otherError, [2]) ∧
      umemNew 1 true (umemNew 1 false [2]).2 = (UmemNewOutcome.success, [1, 2])) :=
  ⟨by decide, marker_guard_spec 1 [2] true (by decide)⟩

/-- Claim C6: the descriptor pool is yielded exactly once per UMEM (the first
call returns it and sets the guard, any later call returns nothing); it
contains exactly `N` descriptors in last-chunk-first order (the `i`-th
element has address `(N − 1 − i) × CHUNK_SIZE`), and for every chunk index
`c < N` exactly one pool element has address — and, the chunk size being a
power of two, base address — `c × CHUNK_SIZE`. -/
theorem descriptors_spec (N CS k : Nat) (hCS : CS = 2 ^ k) (hk : k ≤ 63)
    (hNC : N * CS ≤ u64Lim) :
    descriptors N CS false = (some (descriptorsList N CS), true) ∧
    descriptors N CS true = (none, true) ∧
    (descriptorsList N CS).length = N ∧
    (∀ i, i < N → (descriptorsList N CS).getD i 0 = (N - 1 - i) * CS) ∧
    (∀ c, c < N → (descriptorsList N CS).count (c * CS) = 1) ∧
    (∀ a ∈ descriptorsList N CS, base_addr CS a = a) := by
  have hCSpos : 0 < CS := by
    rw [hCS]
    exact Nat.pos_pow_of_pos k (by omega)
  refine ⟨by simp [descriptors], by simp [descriptors], by simp [descriptorsList], ?_, ?_, ?_⟩
  · intro i hi
    unfold descriptorsList
    rw [List.getD_eq_getElem?_getD, List.getElem?_reverse (by simpa using hi)]
    simp only [List.length_map, List.length_range]
    rw [List.getElem?_map, List.getElem?_range (show N - 1 - i < N by omega)]
    simp
  · intro c hc
    have hinj : Function.Injective (fun x : Nat => x * CS) := by
      intro a b hab
      exact Nat.eq_of_mul_eq_mul_right hCSpos hab
    have hnd : (descriptorsList N CS).Nodup := by
      unfold descriptorsList
      exact List.nodup_reverse.mpr ((List.nodup_range N).map hinj)
    have hmem : c * CS ∈ descriptorsList N CS := by
      unfold descriptorsList
      rw [List.mem_reverse, List.mem_map]
      exact ⟨c, List.mem_range.mpr hc, rfl⟩
    exact List.count_eq_one_of_mem hnd hmem
  · intro a ha
    unfold descriptorsList at ha
    rw [List.mem_reverse, List.mem_map] at ha
    obtain ⟨c, hc, rfl⟩ := ha
    rw [List.mem_range] at hc
    have hlt : c * CS < N * CS := Nat.mul_lt_mul_of_pos_right hc hCSpos
    rw [u64Lim_eq] at hNC
    rw [hCS] at hlt hNC ⊢
    exact base_addr_aligned (by omega) (by omega)

/-- Concrete instance of `descriptors_spec` with 3 chunks of size 2048. -/
theorem descriptors_spec_witness :
    ((2048 : Nat) = 2 ^ 11 ∧ 11 ≤ 63 ∧ 3 * 2048 ≤ u64Lim) ∧
    (descriptors 3 2048 false = (some (descriptorsList 3 2048), true) ∧
      descriptors 3 2048 true = (none, true) ∧
      (descriptorsList 3 2048).length = 3 ∧
      (∀ i, i < 3 → (descriptorsList 3 2048).getD i 0 = (3 - 1 - i) * 2048) ∧
      (∀ c, c < 3 → (descriptorsList 3 2048).count (c * 2048) = 1) ∧
      (∀ a ∈ descriptorsList 3 2048, base_addr 2048 a = a)) :=
  ⟨⟨by norm_num, by norm_num, by decide⟩,
    descriptors_spec 3 2048 11 (by norm_num) (by norm_num) (by decide)⟩

end AfXdp
